import Mathlib

/-!
Verification of the dnastore streaming decoder (`src/decoder.h`) and the
Viterbi indexing helpers (`src/viterbi.h`).

The decoder and writer are shallowly embedded: the C++ `std::map` keyed by
state index becomes a key-sorted association list iterated in key order, the
writer's output stream becomes an accumulated list of bytes, and the fatal
`Assert` calls become `Except` errors.  The transducer data model itself
(`trans.h`: states, transitions, the reserved symbol classes and the
`isEnd`/`emitsOutput`/`exitsWithInput` observations) is not part of the
repository's staged sources, so those pieces are modelled from the
specification; each such definition says so in its doc comment.
-/

namespace DS

/-- Modelled from the spec: the wire token classes of `trans.h` (which is not
under `src/`): the explicit null, the bit symbols, `SOF`, `EOF`, indexed
control tokens, and the output/base alphabet together with any other byte. -/
inductive Sym where
  | null : Sym
  | bit0 : Sym
  | bit1 : Sym
  | sof : Sym
  | eof : Sym
  | control : Nat → Sym
  | base : Char → Sym
deriving DecidableEq

/-- Modelled from the spec: a transition is (destination state, input symbol
or null, output symbol or null); `trans.h` is not under `src/`.  The C++
field `in` is a Lean keyword, hence `in_`. -/
structure MachineTransition where
  in_ : Sym
  out : Sym
  dest : Nat
deriving DecidableEq

/-- Modelled from the spec: a transition consumes no input iff its input
label is the null symbol. -/
def MachineTransition.inputEmpty (t : MachineTransition) : Bool :=
  t.in_ == Sym.null

/-- Modelled from the spec: a transition emits no output iff its output label
is the null symbol. -/
def MachineTransition.outputEmpty (t : MachineTransition) : Bool :=
  t.out == Sym.null

/-- Modelled from the spec: a named state with its `isEnd` flag and ordered
outgoing transitions (`trans.h` is not under `src/`). -/
structure MachineState where
  name : String
  isEndFlag : Bool
  trans : List MachineTransition
deriving DecidableEq

/-- Modelled from the spec: each state carries a flag `isEnd`. -/
def MachineState.isEnd (ms : MachineState) : Bool := ms.isEndFlag

/-- Modelled from the spec: `emitsOutput` is true iff every outgoing
transition carries a non-null output. -/
def MachineState.emitsOutput (ms : MachineState) : Bool :=
  ms.trans.all (fun t => !t.outputEmpty)

/-- Modelled from the spec: `exitsWithInput` is true iff every outgoing
transition consumes an input symbol. -/
def MachineState.exitsWithInput (ms : MachineState) : Bool :=
  ms.trans.all (fun t => !t.inputEmpty)

/-- Modelled from the spec: an ordered sequence of states referenced by
integer index, with a distinguished start state. -/
structure Machine where
  state : List MachineState
  start : Nat

def Machine.nStates (m : Machine) : Nat := m.state.length

/-- Modelled from the spec: `isControl` identifies the indexed control
tokens. -/
def Machine.isControl : Sym → Bool
  | Sym.control _ => true
  | _ => false

/-- State lookup by index (the C++ `machine.state[s]`; indices produced by
the decoder are always in range, out-of-range lookup yields an inert state). -/
def Machine.getState (m : Machine) (s : Nat) : MachineState :=
  m.state.getD s { name := "", isEndFlag := false, trans := [] }

/-- `Decoder::isUsable` (decoder.h:116-121): a transition is usable iff its
input is null, a bit symbol, `EOF`, `SOF`, or a control token. -/
def isUsable (t : MachineTransition) : Bool :=
  t.in_ == Sym.null
    || t.in_ == Sym.bit0 || t.in_ == Sym.bit1
    || t.in_ == Sym.eof || t.in_ == Sym.sof
    || Machine.isControl t.in_

/-- A pending input queue (the C++ `deque<InputSymbol>`). -/
abbrev Queue := List Sym

/-- The decoder's hypothesis map `map<State, deque<InputSymbol>>`: modelled as
an association list kept sorted by state index, matching `std::map`'s
key-ordered iteration. -/
abbrev StateString := List (Nat × Queue)

/-- `std::map` lookup (`count`/`at`). -/
def ssLookup : StateString → Nat → Option Queue
  | [], _ => none
  | (k2, v) :: rest, k => if k = k2 then some v else ssLookup rest k

/-- `std::map` insert-or-assign (`m[k] = v`), keeping keys sorted. -/
def ssSet : StateString → Nat → Queue → StateString
  | [], k, v => [(k, v)]
  | (k2, v2) :: rest, k, v =>
    if k < k2 then (k, v) :: (k2, v2) :: rest
    else if k = k2 then (k, v) :: rest
    else (k2, v2) :: ssSet rest k v

/-- `std::map::insert` (`m.insert(kv)`): keeps the old value when the key is
already present, keeping keys sorted. -/
def ssInsertNew : StateString → Nat → Queue → StateString
  | [], k, v => [(k, v)]
  | (k2, v2) :: rest, k, v =>
    if k < k2 then (k, v) :: (k2, v2) :: rest
    else if k = k2 then (k2, v2) :: rest
    else (k2, v2) :: ssInsertNew rest k v

/-- The key list of a hypothesis map. -/
def ssKeys (l : StateString) : List Nat := l.map Prod.fst

/-- The decoder's fatal assertion failures (decoder.h `Assert` calls):
two distinct input queues for one destination state, or an undecodable
output symbol. -/
inductive DecErr where
  | queueConflict : Nat → Queue → Queue → DecErr
  | cannotDecode : Sym → DecErr
deriving DecidableEq

/-- First half of one `Decoder::expand` pass (decoder.h:59-67): `seen`
accumulates every hypothesis ever in `current` (`seen.insert(ss)`, keeping
the old queue on repeated states). -/
def mergeSeen : StateString → StateString → StateString
  | seen, [] => seen
  | seen, ss :: rest => mergeSeen (ssInsertNew seen ss.1 ss.2) rest

/-- First half of one `Decoder::expand` pass (decoder.h:59-67): a hypothesis
whose state `isEnd` or `emitsOutput` is preserved into `next`. -/
def preserveGo (m : Machine) : StateString → StateString → StateString
  | [], next => next
  | ss :: rest, next =>
    preserveGo m rest
      (if (m.getState ss.1).isEnd || (m.getState ss.1).emitsOutput
       then ssSet next ss.1 ss.2 else next)

def preserveStates (m : Machine) (cur : StateString) : StateString :=
  preserveGo m cur []

/-- The queue a transition hands to its destination (`nextStr` in
decoder.h:74-76 and 132-134): the pending queue, extended with the consumed
input symbol when the transition consumes one. -/
def extendQ (str : Queue) (t : MachineTransition) : Queue :=
  str ++ (if t.inputEmpty then [] else [t.in_])

/-- Second half of one `Decoder::expand` pass, inner transition loop
(decoder.h:72-91): follow every usable null-output transition, extending the
queue with the consumed input symbol; a destination already in `seen` must
carry an equal queue (else the `QueueConflict` assertion fires), a
destination not in `seen` is written into `next` (`next[t.dest] = nextStr`)
and marks the pass as having found a new state. -/
def expandTrans (m : Machine) (seen : StateString) (str : Queue) :
    List MachineTransition → StateString → Bool → Except DecErr (StateString × Bool)
  | [], next, found => Except.ok (next, found)
  | t :: ts, next, found =>
    if isUsable t && t.outputEmpty then
      match ssLookup seen t.dest with
      | some q =>
        if q = extendQ str t then expandTrans m seen str ts next found
        else Except.error (DecErr.queueConflict t.dest q (extendQ str t))
      | none => expandTrans m seen str ts (ssSet next t.dest (extendQ str t)) true
    else expandTrans m seen str ts next found

/-- Second half of one `Decoder::expand` pass, outer loop over `current`
(decoder.h:68-92). -/
def expandSecondLoop (m : Machine) (seen : StateString) :
    StateString → StateString → Bool → Except DecErr (StateString × Bool)
  | [], next, found => Except.ok (next, found)
  | (s, str) :: rest, next, found =>
    match expandTrans m seen str (m.getState s).trans next found with
    | Except.error e => Except.error e
    | Except.ok (next2, found2) => expandSecondLoop m seen rest next2 found2

/-- `Decoder::expand`'s do-while loop (decoder.h:54-96), with an explicit
pass budget standing for the unbounded C++ loop: `Except.ok none` means the
budget was exhausted mid-loop (shown impossible below for the budget
`expandFuel`), otherwise the final `current` after the first pass that found
no state outside `seen`. -/
def expandLoop (m : Machine) : Nat → StateString → StateString → Except DecErr (Option StateString)
  | 0, _, _ => Except.ok none
  | fuel + 1, cur, seen =>
    let seen2 := mergeSeen seen cur
    match expandSecondLoop m seen2 cur (preserveStates m cur) false with
    | Except.error e => Except.error e
    | Except.ok (next, found) =>
      if found then expandLoop m fuel next seen2 else Except.ok (some next)

/-- One pass more than the number of states: enough for the loop to
terminate on its own (proved below). -/
def expandFuel (m : Machine) : Nat := m.nStates + 1

/-- `Decoder::expand` (decoder.h:54-96), entered with an empty `seen`. -/
def Decoder.expand (m : Machine) (cur : StateString) : Except DecErr (Option StateString) :=
  expandLoop m (expandFuel m) cur []

/-- The scan of `Decoder::shiftResolvedSymbols`'s inner for-loop
(decoder.h:163-176): `some c` exactly when the first queue is non-empty with
front `c` and every later queue is non-empty with the same front. -/
def shiftCond : StateString → Option Sym
  | [] => none
  | (_, q) :: rest =>
    match q with
    | [] => none
    | c :: _ => if rest.all (fun sq => sq.2.head? == some c) then some c else none

/-- Total number of pending input symbols, the loop variant of
`shiftResolvedSymbols`. -/
def sumLen (cur : StateString) : Nat := (cur.map (fun sq => sq.2.length)).sum

/-- The while-loop of `Decoder::shiftResolvedSymbols` (decoder.h:161-185):
while the scan succeeds, write the common front symbol and pop it from every
queue.  The fuel `sumLen cur + 1` always suffices since each iteration pops
at least one symbol. -/
def shiftGo : Nat → StateString → List Sym → StateString × List Sym
  | 0, cur, acc => (cur, acc)
  | fuel + 1, cur, acc =>
    match shiftCond cur with
    | some c => shiftGo fuel (cur.map (fun sq => (sq.1, sq.2.tail))) (acc ++ [c])
    | none => (cur, acc)

/-- `Decoder::shiftResolvedSymbols` (decoder.h:161-185); returns the new
hypothesis map and the symbols written to the writer. -/
def shiftResolvedSymbols (cur : StateString) : StateString × List Sym :=
  shiftGo (sumLen cur + 1) cur []

/-- The `next`-building inner loop of `Decoder::decodeSymbol`
(decoder.h:129-147): follow every usable transition with output `o`; a
destination already in `next` must carry an equal queue, else the
`QueueConflict` assertion fires; `next[nextState] = nextStr` assigns either
way. -/
def decodeTrans (m : Machine) (str : Queue) (o : Sym) :
    List MachineTransition → StateString → Except DecErr StateString
  | [], next => Except.ok next
  | t :: ts, next =>
    if isUsable t && t.out == o then
      match ssLookup next t.dest with
      | some q =>
        if q = extendQ str t then decodeTrans m str o ts (ssSet next t.dest (extendQ str t))
        else Except.error (DecErr.queueConflict t.dest q (extendQ str t))
      | none => decodeTrans m str o ts (ssSet next t.dest (extendQ str t))
    else decodeTrans m str o ts next

/-- The outer loop over `current` of `Decoder::decodeSymbol`
(decoder.h:126-148). -/
def buildNext (m : Machine) (o : Sym) : StateString → StateString → Except DecErr StateString
  | [], next => Except.ok next
  | (s, str) :: rest, next =>
    match decodeTrans m str o (m.getState s).trans next with
    | Except.error e => Except.error e
    | Except.ok next2 => buildNext m o rest next2

/-- `Decoder::decodeSymbol` (decoder.h:123-159): build `next`, assert it
non-empty (`CannotDecode`), swap it in, `expand`; then flush the single
hypothesis if its state `exitsWithInput`, else (only when more than one
hypothesis remains) `shiftResolvedSymbols`.  The result is the new hypothesis
map together with the symbols written; `Except.ok none` stands for `expand`
exhausting its pass budget (impossible, see `expandLoop` termination). -/
def decodeSymbol (m : Machine) (cur : StateString) (o : Sym) :
    Except DecErr (Option (StateString × List Sym)) :=
  match buildNext m o cur [] with
  | Except.error e => Except.error e
  | Except.ok next =>
    if next.isEmpty then Except.error (DecErr.cannotDecode o)
    else
      match expandLoop m (expandFuel m) next [] with
      | Except.error e => Except.error e
      | Except.ok none => Except.ok none
      | Except.ok (some cur2) =>
        match cur2 with
        | [(s, q)] =>
          if (m.getState s).exitsWithInput then Except.ok (some ([(s, [])], q))
          else Except.ok (some ([(s, q)], []))
        | _ => Except.ok (some (shiftResolvedSymbols cur2))

/-- No hypothesis in `cur` has a usable outgoing transition whose output is
`o`: exactly the condition under which `decodeSymbol`'s `next` stays empty. -/
def noMatchB (m : Machine) (cur : StateString) (o : Sym) : Bool :=
  cur.all (fun sq => (m.getState sq.1).trans.all (fun t => !(isUsable t && t.out == o)))

/-- `Decoder::close` (decoder.h:28-47): on a non-empty hypothesis map,
`expand`, collect the end-state hypotheses; flush the single one, or warn
(without writing) when several end states or several non-end hypotheses
remain.  Result: `(symbols written, whether an unresolved warning was
issued)`; `Except.ok none` again stands for an exhausted expand budget. -/
def Decoder.close (m : Machine) (cur : StateString) :
    Except DecErr (Option (List Sym × Bool)) :=
  if cur.isEmpty then Except.ok (some ([], false))
  else
    match expandLoop m (expandFuel m) cur [] with
    | Except.error e => Except.error e
    | Except.ok none => Except.ok none
    | Except.ok (some cur2) =>
      match cur2.filter (fun ss => (m.getState ss.1).isEnd) with
      | [] =>
        if 1 < cur2.length then Except.ok (some ([], true))
        else Except.ok (some ([], false))
      | [e] => Except.ok (some (e.2, false))
      | _ => Except.ok (some ([], true))

/-- The bit position `n` maps to inside the output byte (`BinaryWriter::flush`,
decoder.h:215): position `n` when `msb0` is false, `7 - n` when true. -/
def bitShift (msb0 : Bool) (n : Nat) : Nat := if msb0 then 7 - n else n

/-- The byte `BinaryWriter::flush` (decoder.h:211-219) assembles from the bit
buffer: `c |= 1 << (msb0 ? 7-n : n)` for every set bit, on an unsigned char
(hence the mod 256, inert for the 8-bit groups `write` flushes). -/
def flushByte (msb0 : Bool) (outbuf : List Bool) : Nat :=
  (List.range outbuf.length).foldl
    (fun c n => if outbuf.getD n false then (c ||| (1 <<< bitShift msb0 n)) % 256 else c) 0

/-- `BinaryWriter` (decoder.h:193-240): the `msb0` flag, the pending bit
buffer, and (in place of the output stream) the list of bytes written. -/
structure BinaryWriter where
  msb0 : Bool
  outbuf : List Bool
  written : List Nat
deriving DecidableEq

/-- `BinaryWriter::flush` (decoder.h:211-219). -/
def BinaryWriter.flush (w : BinaryWriter) : BinaryWriter :=
  { w with written := w.written ++ [flushByte w.msb0 w.outbuf], outbuf := [] }

/-- One character of `BinaryWriter::write` (decoder.h:221-239): bits are
buffered (flushing on the eighth), everything else is ignored with a
warning. -/
def BinaryWriter.write1 (w : BinaryWriter) (c : Sym) : BinaryWriter :=
  if c == Sym.bit0 || c == Sym.bit1 then
    let w2 := { w with outbuf := w.outbuf ++ [c == Sym.bit1] }
    if w2.outbuf.length == 8 then w2.flush else w2
  else w

/-- `BinaryWriter::write` (decoder.h:221-239) over a buffer. -/
def BinaryWriter.write (w : BinaryWriter) (buf : List Sym) : BinaryWriter :=
  buf.foldl BinaryWriter.write1 w

/-- A freshly constructed `BinaryWriter` (decoder.h:198-201): empty bit
buffer; the constructor sets `msb0 = false`, the flag is a public field the
caller may set, so it is a parameter here. -/
def initWriter (msb0 : Bool) : BinaryWriter :=
  { msb0 := msb0, outbuf := [], written := [] }

/-- `ViterbiMatrix::cellIndex` (viterbi.h:50-52). -/
def cellIndex (maxDupLen nStates : Nat) (state pos mutState : Nat) : Nat :=
  (maxDupLen + 2) * (pos * nStates + state) + mutState

/-- `ViterbiMatrix::nCells` (viterbi.h:37-39). -/
def nCells (maxDupLen nStates seqLen : Nat) : Nat :=
  (maxDupLen + 2) * nStates * (seqLen + 1)

/-- `StateScores` (viterbi.h:20-24), restricted to the field the indexing
claims concern; the floating-point score lists `emit`/`null` are outside the
embedding. -/
structure StateScores where
  leftContext : List Char

/-- `ViterbiMatrix::sMutStateIndex` (viterbi.h:41). -/
def sMutStateIndex : Nat := 0

/-- `ViterbiMatrix::dMutStateIndex` (viterbi.h:42). -/
def dMutStateIndex : Nat := 1

/-- `ViterbiMatrix::tMutStateIndex` (viterbi.h:43). -/
def tMutStateIndex (dupIdx : Nat) : Nat := 2 + dupIdx

/-- `ViterbiMatrix::isTMutStateIndex` (viterbi.h:46-48).  The C++ computes
`tMutStateIndex(maxDupLen-1)` in `size_t`; for `maxDupLen ≥ 1` (the only case
in which T states exist) the truncated Nat subtraction agrees with it. -/
def isTMutStateIndex (maxDupLen i : Nat) : Bool :=
  decide (tMutStateIndex 0 ≤ i) && decide (i ≤ tMutStateIndex (maxDupLen - 1))

/-- `ViterbiMatrix::maxDupLenAt` (viterbi.h:87). -/
def maxDupLenAt (maxDupLen : Nat) (ss : StateScores) : Nat :=
  min maxDupLen ss.leftContext.length

/-- `ViterbiMatrix::tanDupBase` (viterbi.h:88). -/
def tanDupBase (ss : StateScores) (dupIdx : Nat) : Char :=
  ss.leftContext.getD (ss.leftContext.length - 1 - dupIdx) default

/-- Well-formed transducer: every transition stays inside the state table. -/
def MachineWF (m : Machine) : Prop :=
  ∀ ms ∈ m.state, ∀ t ∈ ms.trans, t.dest < m.nStates

instance (m : Machine) : Decidable (MachineWF m) := by
  unfold MachineWF; infer_instance

/-- Adjacency of the null-output transition subgraph restricted to
non-emitting states (spec §3: the transducer contract). -/
def nullSuccsNE (m : Machine) (s : Nat) : List Nat :=
  if (m.getState s).emitsOutput then []
  else
    ((m.getState s).trans.filter
      (fun t => t.outputEmpty && !(m.getState t.dest).emitsOutput)).map
      (fun t => t.dest)

/-- Bounded-length reachability (a non-empty path of length at most `fuel`)
in that subgraph. -/
def nullReachWithin (m : Machine) : Nat → Nat → Nat → Bool
  | 0, _, _ => false
  | fuel + 1, a, b =>
    (nullSuccsNE m a).any (fun d => d == b || nullReachWithin m fuel d b)

/-- The null-output transition subgraph restricted to non-emitting states is
acyclic (no state reaches itself; a shortest cycle has length at most
`nStates`). -/
def nullAcyclic (m : Machine) : Bool :=
  (List.range m.nStates).all (fun s => !nullReachWithin m m.nStates s s)

/-- A transducer whose non-emitting, non-end start state has two usable
null-output transitions to the same (not yet seen) state consuming different
input symbols: the queues `[0]` and `[1]` collide on state `B` within a
single expand pass. -/
def M2 : Machine :=
  { state := [
      { name := "A", isEndFlag := false, trans := [
          { in_ := Sym.bit0, out := Sym.null, dest := 1 },
          { in_ := Sym.bit1, out := Sym.null, dest := 1 } ] },
      { name := "B", isEndFlag := false, trans := [
          { in_ := Sym.bit0, out := Sym.base 'x', dest := 1 } ] } ],
    start := 0 }

/-- A transducer on which `decodeSymbol 'x'` leaves a single hypothesis whose
state does not `exitsWithInput` (state `B` has a null-input transition). -/
def M3 : Machine :=
  { state := [
      { name := "A", isEndFlag := false, trans := [
          { in_ := Sym.bit0, out := Sym.base 'x', dest := 1 } ] },
      { name := "B", isEndFlag := false, trans := [
          { in_ := Sym.null, out := Sym.base 'y', dest := 1 } ] } ],
    start := 0 }

/-- Like `M3` but state `B` `exitsWithInput`, so `decodeSymbol 'x'` flushes
the single surviving queue. -/
def M3b : Machine :=
  { state := [
      { name := "A", isEndFlag := false, trans := [
          { in_ := Sym.bit0, out := Sym.base 'x', dest := 1 } ] },
      { name := "B", isEndFlag := false, trans := [
          { in_ := Sym.bit1, out := Sym.base 'y', dest := 1 } ] } ],
    start := 0 }

/-- A single end state, for exercising `close` on a unique end-state
hypothesis. -/
def M4 : Machine :=
  { state := [
      { name := "E", isEndFlag := true, trans := [] } ],
    start := 0 }

/-- Two usable transitions with the same output `'x'` into the same state
consuming different inputs: `decodeSymbol 'x'` hits the `QueueConflict`
assertion although its `next` set is non-empty. -/
def M5c : Machine :=
  { state := [
      { name := "A", isEndFlag := false, trans := [
          { in_ := Sym.bit0, out := Sym.base 'x', dest := 1 },
          { in_ := Sym.bit1, out := Sym.base 'x', dest := 1 } ] },
      { name := "B", isEndFlag := false, trans := [
          { in_ := Sym.bit0, out := Sym.base 'y', dest := 1 } ] } ],
    start := 0 }

/-- An emitting single-state machine: no transition outputs `'z'`, so
`decodeSymbol 'z'` must fail with `CannotDecode`. -/
def M5w : Machine :=
  { state := [
      { name := "A", isEndFlag := false, trans := [
          { in_ := Sym.bit0, out := Sym.base 'x', dest := 0 } ] } ],
    start := 0 }

/-- A well-formed machine with an acyclic (indeed empty) non-emitting null
subgraph, used to instantiate the expand-termination theorem. -/
def M6w : Machine :=
  { state := [
      { name := "A", isEndFlag := false, trans := [
          { in_ := Sym.bit0, out := Sym.base 'x', dest := 0 } ] } ],
    start := 0 }

/-! ## Association-list lemmas -/

theorem ssSet_ne_nil (l : StateString) (k : Nat) (v : Queue) : ssSet l k v ≠ [] := by
  cases l with
  | nil => simp [ssSet]
  | cons hd tl =>
    obtain ⟨k2, v2⟩ := hd
    simp only [ssSet]
    split
    · simp
    · split <;> simp

theorem mem_ssKeys_ssSet {l : StateString} {k a : Nat} {v : Queue} :
    a ∈ ssKeys (ssSet l k v) ↔ a = k ∨ a ∈ ssKeys l := by
  induction l with
  | nil => simp [ssSet, ssKeys]
  | cons hd tl ih =>
    obtain ⟨k2, v2⟩ := hd
    by_cases h1 : k < k2
    · simp [ssSet, h1, ssKeys]
    · by_cases h2 : k = k2
      · subst h2
        simp [ssSet, h1, ssKeys]
      · simp only [ssSet, if_neg h1, if_neg h2]
        simp [ssKeys] at ih ⊢
        tauto

theorem mem_ssKeys_ssInsertNew {l : StateString} {k a : Nat} {v : Queue} :
    a ∈ ssKeys (ssInsertNew l k v) ↔ a = k ∨ a ∈ ssKeys l := by
  induction l with
  | nil => simp [ssInsertNew, ssKeys]
  | cons hd tl ih =>
    obtain ⟨k2, v2⟩ := hd
    by_cases h1 : k < k2
    · simp [ssInsertNew, h1, ssKeys]
    · by_cases h2 : k = k2
      · subst h2
        simp [ssInsertNew, h1, ssKeys]
      · simp only [ssInsertNew, if_neg h1, if_neg h2]
        simp [ssKeys] at ih ⊢
        tauto

theorem ssLookup_eq_none_iff {l : StateString} {k : Nat} :
    ssLookup l k = none ↔ k ∉ ssKeys l := by
  induction l with
  | nil => simp [ssLookup, ssKeys]
  | cons hd tl ih =>
    obtain ⟨k2, v2⟩ := hd
    by_cases h : k = k2
    · subst h
      simp [ssLookup, ssKeys]
    · simp [ssLookup, h, ssKeys, ih]

theorem mem_ssKeys_mergeSeen {seen cur : StateString} {a : Nat} :
    a ∈ ssKeys (mergeSeen seen cur) ↔ a ∈ ssKeys seen ∨ a ∈ ssKeys cur := by
  induction cur generalizing seen with
  | nil => simp [mergeSeen, ssKeys]
  | cons hd tl ih =>
    simp only [mergeSeen]
    rw [ih]
    rw [show a ∈ ssKeys (ssInsertNew seen hd.1 hd.2) ↔ a = hd.1 ∨ a ∈ ssKeys seen from
      mem_ssKeys_ssInsertNew]
    simp [ssKeys]
    tauto

/-! ## The shiftResolvedSymbols loop -/

theorem shiftCond_some {cur : StateString} {c : Sym} (h : shiftCond cur = some c) :
    cur ≠ [] ∧ ∀ sq ∈ cur, sq.2.head? = some c := by
  cases cur with
  | nil => simp [shiftCond] at h
  | cons hd rest =>
    obtain ⟨s, q⟩ := hd
    cases q with
    | nil => simp [shiftCond] at h
    | cons c0 t =>
      simp only [shiftCond] at h
      split at h
      · rename_i hall
        obtain rfl : c0 = c := by simpa using h
        refine ⟨by simp, ?_⟩
        intro sq hsq
        rcases List.mem_cons.mp hsq with rfl | hmem
        · simp
        · simpa using List.all_eq_true.mp hall sq hmem
      · simp at h

theorem shiftCond_beq (cur : StateString) (c : Sym) :
    (shiftCond cur == some c)
      = (!cur.isEmpty && cur.all (fun sq => sq.2.head? == some c)) := by
  cases cur with
  | nil => simp [shiftCond]
  | cons hd rest =>
    obtain ⟨s, q⟩ := hd
    cases q with
    | nil => simp [shiftCond]
    | cons c0 t =>
      by_cases hc : c0 = c
      · subst hc
        by_cases hall : (rest.all fun sq => sq.2.head? == some c0) = true
        · simp [shiftCond, hall]
        · simp [shiftCond, hall, Bool.eq_false_iff.mpr hall]
      · by_cases hall : (rest.all fun sq => sq.2.head? == some c0) = true
        · simp [shiftCond, hall, hc]
        · simp [shiftCond, hall, hc]

theorem sumLen_map_tail_le (cur : StateString) :
    sumLen (cur.map (fun sq => (sq.1, sq.2.tail))) ≤ sumLen cur := by
  induction cur with
  | nil => simp [sumLen]
  | cons hd tl ih =>
    simp only [List.map_cons, sumLen, List.sum_cons] at ih ⊢
    have : hd.2.tail.length ≤ hd.2.length := by
      cases h : hd.2 <;> simp
    omega

theorem sumLen_pop_lt {cur : StateString} {c : Sym}
    (hne : cur ≠ []) (hall : ∀ sq ∈ cur, sq.2.head? = some c) :
    sumLen (cur.map (fun sq => (sq.1, sq.2.tail))) < sumLen cur := by
  cases cur with
  | nil => exact absurd rfl hne
  | cons hd tl =>
    have hh := hall hd (List.mem_cons_self _ _)
    have hlen : hd.2.tail.length + 1 = hd.2.length := by
      cases h2 : hd.2 with
      | nil => rw [h2] at hh; simp at hh
      | cons a t => simp [h2]
    have hle := sumLen_map_tail_le tl
    simp only [List.map_cons, sumLen, List.sum_cons] at hle ⊢
    omega

theorem shiftGo_acc (fuel : Nat) : ∀ (cur : StateString) (acc : List Sym),
    shiftGo fuel cur acc = ((shiftGo fuel cur []).1, acc ++ (shiftGo fuel cur []).2) := by
  induction fuel with
  | zero => intro cur acc; simp [shiftGo]
  | succ fuel ih =>
    intro cur acc
    cases h : shiftCond cur with
    | none => simp [shiftGo, h]
    | some c =>
      simp only [shiftGo, h]
      rw [ih (cur.map (fun sq => (sq.1, sq.2.tail))) (acc ++ [c]),
        ih (cur.map (fun sq => (sq.1, sq.2.tail))) ([] ++ [c])]
      simp

theorem drop_tail_eq (l : List Sym) (n : Nat) : l.tail.drop n = l.drop (n + 1) := by
  cases l <;> simp

theorem shiftGo_spec : ∀ (fuel : Nat) (cur : StateString), sumLen cur < fuel →
    (shiftGo fuel cur []).1
      = cur.map (fun sq => (sq.1, sq.2.drop (shiftGo fuel cur []).2.length))
    ∧ (∀ sq ∈ cur, sq.2.take (shiftGo fuel cur []).2.length = (shiftGo fuel cur []).2)
    ∧ shiftCond (shiftGo fuel cur []).1 = none := by
  intro fuel
  induction fuel with
  | zero => intro cur h; omega
  | succ fuel ih =>
    intro cur hlt
    cases h : shiftCond cur with
    | none =>
      have hres : shiftGo (fuel + 1) cur [] = (cur, []) := by simp [shiftGo, h]
      rw [hres]
      refine ⟨?_, ?_, h⟩
      · simp
      · simp
    | some c =>
      obtain ⟨hne, hall⟩ := shiftCond_some h
      have hlt2 : sumLen (cur.map (fun sq => (sq.1, sq.2.tail))) < fuel := by
        have h1 := sumLen_pop_lt hne hall
        omega
      obtain ⟨ih1, ih2, ih3⟩ := ih (cur.map (fun sq => (sq.1, sq.2.tail))) hlt2
      have hres : shiftGo (fuel + 1) cur []
          = ((shiftGo fuel (cur.map (fun sq => (sq.1, sq.2.tail))) []).1,
             c :: (shiftGo fuel (cur.map (fun sq => (sq.1, sq.2.tail))) []).2) := by
        simp only [shiftGo, h]
        rw [shiftGo_acc fuel (cur.map (fun sq => (sq.1, sq.2.tail))) ([] ++ [c])]
        simp
      rw [hres]
      refine ⟨?_, ?_, ih3⟩
      · rw [ih1, List.map_map]
        simp only [List.length_cons]
        congr 1
        funext sq
        simp [drop_tail_eq]
      · intro sq hsq
        have hh := hall sq hsq
        cases hq : sq.2 with
        | nil => rw [hq] at hh; simp at hh
        | cons a t =>
          rw [hq] at hh
          obtain rfl : a = c := by simpa using hh
          have hmem : (sq.1, t) ∈ cur.map (fun sq => (sq.1, sq.2.tail)) := by
            refine List.mem_map.mpr ⟨sq, hsq, ?_⟩
            rw [hq]
            rfl
          have ht := ih2 (sq.1, t) hmem
          simp only [List.length_cons, hq, List.take_succ_cons]
          rw [ht]

/-! ## Lemmas on the decodeSymbol next-set construction -/

theorem decodeTrans_nomatch {m : Machine} {str : Queue} {o : Sym} :
    ∀ {ts : List MachineTransition} {next : StateString},
    (∀ t ∈ ts, (isUsable t && t.out == o) = false) →
    decodeTrans m str o ts next = Except.ok next := by
  intro ts
  induction ts with
  | nil => intro next _; rfl
  | cons t ts ih =>
    intro next h
    have ht := h t (List.mem_cons_self _ _)
    simp only [decodeTrans, ht, Bool.false_eq_true, if_false]
    exact ih (fun u hu => h u (List.mem_cons_of_mem _ hu))

theorem decodeTrans_ne_nil {m : Machine} {str : Queue} {o : Sym} :
    ∀ {ts : List MachineTransition} {next next2 : StateString},
    decodeTrans m str o ts next = Except.ok next2 → next ≠ [] → next2 ≠ [] := by
  intro ts
  induction ts with
  | nil =>
    intro next next2 h hne
    cases h
    exact hne
  | cons t ts ih =>
    intro next next2 h hne
    by_cases hc : (isUsable t && t.out == o) = true
    · simp only [decodeTrans, hc, if_true] at h
      split at h
      · split at h
        · exact ih h (ssSet_ne_nil _ _ _)
        · cases h
      · exact ih h (ssSet_ne_nil _ _ _)
    · rw [Bool.not_eq_true] at hc
      simp only [decodeTrans, hc, Bool.false_eq_true, if_false] at h
      exact ih h hne

theorem decodeTrans_match_ne_nil {m : Machine} {str : Queue} {o : Sym} :
    ∀ {ts : List MachineTransition} {next next2 : StateString} {t : MachineTransition},
    t ∈ ts → (isUsable t && t.out == o) = true →
    decodeTrans m str o ts next = Except.ok next2 → next2 ≠ [] := by
  intro ts
  induction ts with
  | nil => intro next next2 t hmem; cases hmem
  | cons u ts ih =>
    intro next next2 t hmem ht h
    by_cases hc : (isUsable u && u.out == o) = true
    · simp only [decodeTrans, hc, if_true] at h
      split at h
      · split at h
        · exact decodeTrans_ne_nil h (ssSet_ne_nil _ _ _)
        · cases h
      · exact decodeTrans_ne_nil h (ssSet_ne_nil _ _ _)
    · rcases List.mem_cons.mp hmem with rfl | hmem2
      · exact absurd ht hc
      · rw [Bool.not_eq_true] at hc
        simp only [decodeTrans, hc, Bool.false_eq_true, if_false] at h
        exact ih hmem2 ht h

theorem decodeTrans_error_shape {m : Machine} {str : Queue} {o : Sym} :
    ∀ {ts : List MachineTransition} {next : StateString} {e : DecErr},
    decodeTrans m str o ts next = Except.error e →
    ∃ s q1 q2, e = DecErr.queueConflict s q1 q2 := by
  intro ts
  induction ts with
  | nil => intro next e h; cases h
  | cons t ts ih =>
    intro next e h
    by_cases hc : (isUsable t && t.out == o) = true
    · simp only [decodeTrans, hc, if_true] at h
      split at h
      · split at h
        · exact ih h
        · cases h
          exact ⟨_, _, _, rfl⟩
      · exact ih h
    · rw [Bool.not_eq_true] at hc
      simp only [decodeTrans, hc, Bool.false_eq_true, if_false] at h
      exact ih h

theorem buildNext_nomatch {m : Machine} {o : Sym} :
    ∀ {cur next : StateString},
    (∀ sq ∈ cur, ∀ t ∈ (m.getState sq.1).trans, (isUsable t && t.out == o) = false) →
    buildNext m o cur next = Except.ok next := by
  intro cur
  induction cur with
  | nil => intro next _; rfl
  | cons sq rest ih =>
    intro next h
    obtain ⟨s, str⟩ := sq
    have hd := @decodeTrans_nomatch m str o (m.getState s).trans next
      (h (s, str) (List.mem_cons_self _ _))
    simp only [buildNext, hd]
    exact ih (fun u hu => h u (List.mem_cons_of_mem _ hu))

theorem buildNext_ne_nil {m : Machine} {o : Sym} :
    ∀ {cur next next2 : StateString},
    buildNext m o cur next = Except.ok next2 → next ≠ [] → next2 ≠ [] := by
  intro cur
  induction cur with
  | nil =>
    intro next next2 h hne
    cases h
    exact hne
  | cons sq rest ih =>
    intro next next2 h hne
    obtain ⟨s, str⟩ := sq
    simp only [buildNext] at h
    cases hd : decodeTrans m str o (m.getState s).trans next with
    | error e => rw [hd] at h; cases h
    | ok next3 =>
      rw [hd] at h
      exact ih h (decodeTrans_ne_nil hd hne)

theorem buildNext_match_ne_nil {m : Machine} {o : Sym} :
    ∀ {cur next next2 : StateString} {sq : Nat × Queue} {t : MachineTransition},
    sq ∈ cur → t ∈ (m.getState sq.1).trans → (isUsable t && t.out == o) = true →
    buildNext m o cur next = Except.ok next2 → next2 ≠ [] := by
  intro cur
  induction cur with
  | nil => intro next next2 sq t hmem; cases hmem
  | cons sq0 rest ih =>
    intro next next2 sq t hmem htmem ht h
    obtain ⟨s, str⟩ := sq0
    simp only [buildNext] at h
    cases hd : decodeTrans m str o (m.getState s).trans next with
    | error e => rw [hd] at h; cases h
    | ok next3 =>
      rw [hd] at h
      rcases List.mem_cons.mp hmem with rfl | hmem2
      · exact buildNext_ne_nil h (decodeTrans_match_ne_nil htmem ht hd)
      · exact ih hmem2 htmem ht h

theorem buildNext_error_shape {m : Machine} {o : Sym} :
    ∀ {cur next : StateString} {e : DecErr},
    buildNext m o cur next = Except.error e →
    ∃ s q1 q2, e = DecErr.queueConflict s q1 q2 := by
  intro cur
  induction cur with
  | nil => intro next e h; cases h
  | cons sq rest ih =>
    intro next e h
    obtain ⟨s, str⟩ := sq
    simp only [buildNext] at h
    cases hd : decodeTrans m str o (m.getState s).trans next with
    | error e2 =>
      rw [hd] at h
      cases h
      exact decodeTrans_error_shape hd
    | ok next3 =>
      rw [hd] at h
      exact ih h

/-! ## Error shapes of the expand loop -/

theorem expandTrans_error_shape {m : Machine} {seen : StateString} {str : Queue} :
    ∀ {ts : List MachineTransition} {next : StateString} {found : Bool} {e : DecErr},
    expandTrans m seen str ts next found = Except.error e →
    ∃ s q1 q2, e = DecErr.queueConflict s q1 q2 := by
  intro ts
  induction ts with
  | nil => intro next found e h; cases h
  | cons t ts ih =>
    intro next found e h
    by_cases hc : (isUsable t && t.outputEmpty) = true
    · simp only [expandTrans, hc, if_true] at h
      split at h
      · split at h
        · exact ih h
        · cases h
          exact ⟨_, _, _, rfl⟩
      · exact ih h
    · rw [Bool.not_eq_true] at hc
      simp only [expandTrans, hc, Bool.false_eq_true, if_false] at h
      exact ih h

theorem expandSecondLoop_error_shape {m : Machine} {seen : StateString} :
    ∀ {cur next : StateString} {found : Bool} {e : DecErr},
    expandSecondLoop m seen cur next found = Except.error e →
    ∃ s q1 q2, e = DecErr.queueConflict s q1 q2 := by
  intro cur
  induction cur with
  | nil => intro next found e h; cases h
  | cons sq rest ih =>
    intro next found e h
    obtain ⟨s, str⟩ := sq
    simp only [expandSecondLoop] at h
    cases hd : expandTrans m seen str (m.getState s).trans next found with
    | error e2 =>
      rw [hd] at h
      cases h
      exact expandTrans_error_shape hd
    | ok p =>
      rw [hd] at h
      exact ih h

theorem expandLoop_error_shape {m : Machine} :
    ∀ {fuel : Nat} {cur seen : StateString} {e : DecErr},
    expandLoop m fuel cur seen = Except.error e →
    ∃ s q1 q2, e = DecErr.queueConflict s q1 q2 := by
  intro fuel
  induction fuel with
  | zero => intro cur seen e h; cases h
  | succ fuel ih =>
    intro cur seen e h
    simp only [expandLoop] at h
    cases hd : expandSecondLoop m (mergeSeen seen cur) cur (preserveStates m cur) false with
    | error e2 =>
      rw [hd] at h
      cases h
      exact expandSecondLoop_error_shape hd
    | ok p =>
      obtain ⟨next, found⟩ := p
      rw [hd] at h
      cases found with
      | true => exact ih h
      | false => cases h

/-! ## Claim theorems: the streaming decoder -/

/-- C1 (amended): `shiftResolvedSymbols` commits a symbol `c` exactly when the
hypothesis map is non-empty and every queue in it (an empty queue blocks
committal) begins with `c`; the loop pops exactly the resulting common prefix
from every queue and stops the moment the condition fails. -/
theorem shiftResolvedSymbols_committal (cur : StateString) (c : Sym) :
    ((shiftCond cur == some c)
      = (!cur.isEmpty && cur.all (fun sq => sq.2.head? == some c)))
    ∧ (shiftResolvedSymbols cur).1
        = cur.map (fun sq => (sq.1, sq.2.drop (shiftResolvedSymbols cur).2.length))
    ∧ (cur.all (fun sq => sq.2.take (shiftResolvedSymbols cur).2.length
          == (shiftResolvedSymbols cur).2)) = true
    ∧ shiftCond (shiftResolvedSymbols cur).1 = none := by
  obtain ⟨h1, h2, h3⟩ := shiftGo_spec (sumLen cur + 1) cur (Nat.lt_succ_self _)
  refine ⟨shiftCond_beq cur c, h1, ?_, h3⟩
  rw [List.all_eq_true]
  intro sq hsq
  simpa using h2 sq hsq

/-- C1 counterexample: in the hypothesis map `{0 ↦ ε, 1 ↦ [0]}` every
non-empty queue begins with bit `0` and at least one queue is non-empty, yet
`shiftResolvedSymbols` writes nothing and pops nothing: the empty queue at
state 0 blocks committal, contradicting the claim's "front of every
non-empty queue" rule. -/
theorem shiftResolvedSymbols_cex :
    (([(0, ([] : Queue)), (1, [Sym.bit0])].all
        (fun sq => sq.2.isEmpty || sq.2.head? == some Sym.bit0)) = true)
    ∧ (([(0, ([] : Queue)), (1, [Sym.bit0])].any (fun sq => !sq.2.isEmpty)) = true)
    ∧ shiftResolvedSymbols [(0, ([] : Queue)), (1, [Sym.bit0])]
        = ([(0, []), (1, [Sym.bit0])], []) :=
  ⟨by decide, by decide, rfl⟩

/-- C2: on machine `M2`, whose start state has two usable null-output
transitions into the same not-yet-seen state 1 consuming the distinct inputs
`0` and `1`, `expand` does not fail with `QueueConflict`: the second
transition's queue `[1]` silently overwrites the first's `[0]` in `next`
(`next[t.dest] = nextStr`, decoder.h:84, is only guarded by a `seen` check),
so the decoder keeps exactly one of two conflicting queues. -/
theorem expand_silent_overwrite :
    Decoder.expand M2 [(0, [])] = Except.ok (some [(1, [Sym.bit1])])
    ∧ ([Sym.bit0] : Queue) ≠ [Sym.bit1] :=
  ⟨rfl, by decide⟩

/-- C5 (amended): `decodeSymbol o` fails with `CannotDecode o` exactly when no
current hypothesis has a usable outgoing transition whose output is `o` (the
`next` set stays empty); when such a transition exists the error
`CannotDecode` is impossible, though the call may still abort with
`QueueConflict`. -/
theorem decodeSymbol_cannotDecode_iff (m : Machine) (cur : StateString) (o : Sym) :
    decodeSymbol m cur o = Except.error (DecErr.cannotDecode o)
      ↔ noMatchB m cur o = true := by
  cases hnm : noMatchB m cur o with
  | true =>
    simp only [iff_true]
    have hvac : ∀ sq ∈ cur, ∀ t ∈ (m.getState sq.1).trans,
        (isUsable t && t.out == o) = false := by
      intro sq hsq t ht
      have hall := List.all_eq_true.mp hnm sq hsq
      have h2 := List.all_eq_true.mp hall t ht
      rwa [Bool.not_eq_eq_eq_not, Bool.not_true] at h2
    have hb : buildNext m o cur [] = Except.ok [] := buildNext_nomatch hvac
    rw [decodeSymbol, hb]
    rfl
  | false =>
    simp only [Bool.false_eq_true, iff_false]
    intro h
    have hex : ∃ sq ∈ cur, ∃ t ∈ (m.getState sq.1).trans,
        (isUsable t && t.out == o) = true := by
      by_contra hno
      push_neg at hno
      have hall : noMatchB m cur o = true := by
        rw [noMatchB, List.all_eq_true]
        intro sq hsq
        rw [List.all_eq_true]
        intro t ht
        have hf := hno sq hsq t ht
        simp only [Bool.not_eq_true] at hf
        simp [hf]
      rw [hnm] at hall
      cases hall
    obtain ⟨sq, hsq, t, ht, hmatch⟩ := hex
    cases hb : buildNext m o cur [] with
    | error e =>
      obtain ⟨s, a, b, rfl⟩ := buildNext_error_shape hb
      rw [decodeSymbol, hb] at h
      simp at h
    | ok next =>
      have hne : next ≠ [] := buildNext_match_ne_nil hsq ht hmatch hb
      have hemp : next.isEmpty = false := by
        cases next with
        | nil => exact absurd rfl hne
        | cons a l => rfl
      rw [decodeSymbol, hb] at h
      simp only [hemp, Bool.false_eq_true, if_false] at h
      cases he : expandLoop m (expandFuel m) next [] with
      | error e =>
        obtain ⟨s, a, b, rfl⟩ := expandLoop_error_shape he
        rw [he] at h
        simp at h
      | ok r =>
        rw [he] at h
        cases r with
        | none => simp at h
        | some cur2 =>
          rcases cur2 with _ | ⟨⟨s, q⟩, rest⟩
          · simp at h
          · rcases rest with _ | ⟨b, more⟩
            · simp only [] at h
              split at h <;> simp at h
            · simp at h

/-- C5 counterexample: on machine `M5c` the hypothesis at the start state has
two usable transitions with output `'x'` (so the claim's "does not abort"
case applies), yet `decodeSymbol 'x'` aborts with `QueueConflict`: the two
transitions put the distinct queues `[0]` and `[1]` on state 1. -/
theorem decodeSymbol_conflict_abort_cex :
    noMatchB M5c [(0, [])] (Sym.base 'x') = false
    ∧ decodeSymbol M5c [(0, [])] (Sym.base 'x')
        = Except.error (DecErr.queueConflict 1 [Sym.bit0] [Sym.bit1]) :=
  ⟨by decide, rfl⟩

/-- C3 (amended): after `decodeSymbol` has built a non-empty successor set
and `expand` has finished, the decoder flushes the queue when exactly one
hypothesis remains and its state `exitsWithInput`; with exactly one
hypothesis whose state does not `exitsWithInput` it writes nothing and keeps
the queue; only when several (or zero) hypotheses remain does it run
`shiftResolvedSymbols`. -/
theorem decodeSymbol_dispatch (m : Machine) (cur : StateString) (o : Sym)
    (next cur2 : StateString)
    (h1 : buildNext m o cur [] = Except.ok next)
    (h2 : next.isEmpty = false)
    (h3 : expandLoop m (expandFuel m) next [] = Except.ok (some cur2)) :
    (∀ s q, cur2 = [(s, q)] → (m.getState s).exitsWithInput = true →
        decodeSymbol m cur o = Except.ok (some ([(s, [])], q)))
    ∧ (∀ s q, cur2 = [(s, q)] → (m.getState s).exitsWithInput = false →
        decodeSymbol m cur o = Except.ok (some ([(s, q)], [])))
    ∧ (cur2.length ≠ 1 →
        decodeSymbol m cur o = Except.ok (some (shiftResolvedSymbols cur2))) := by
  have hd : decodeSymbol m cur o = (match cur2 with
      | [(s, q)] =>
        if (m.getState s).exitsWithInput then Except.ok (some ([(s, [])], q))
        else Except.ok (some ([(s, q)], []))
      | _ => Except.ok (some (shiftResolvedSymbols cur2))) := by
    rw [decodeSymbol, h1]
    simp only [h2, Bool.false_eq_true, if_false, h3]
    rcases cur2 with _ | ⟨⟨s, q⟩, _ | ⟨b, more⟩⟩ <;> rfl
  refine ⟨?_, ?_, ?_⟩
  · intro s q hc he
    subst hc
    simp [hd, he]
  · intro s q hc he
    subst hc
    simp [hd, he]
  · intro hlen
    rw [hd]
    rcases cur2 with _ | ⟨⟨s, q⟩, rest⟩
    · rfl
    · rcases rest with _ | ⟨b, more⟩
      · simp at hlen
      · rfl

/-- C3 witness: on `M3b` the single surviving hypothesis exits with input, so
`decodeSymbol 'x'` flushes its queue `[0]` to the writer. -/
theorem decodeSymbol_dispatch_witness :
    decodeSymbol M3b [(0, [])] (Sym.base 'x')
      = Except.ok (some ([(1, [])], [Sym.bit0])) :=
  (decodeSymbol_dispatch M3b [(0, [])] (Sym.base 'x')
    [(1, [Sym.bit0])] [(1, [Sym.bit0])] rfl rfl rfl).1 1 [Sym.bit0] rfl rfl

/-- C3 counterexample: on `M3` `decodeSymbol 'x'` leaves exactly one
hypothesis whose state does not `exitsWithInput` and writes nothing — but
`shiftResolvedSymbols`, which the claim says runs in every non-flush case,
would have written `[0]` and emptied the queue. -/
theorem decodeSymbol_single_noexit_cex :
    decodeSymbol M3 [(0, [])] (Sym.base 'x')
      = Except.ok (some ([(1, [Sym.bit0])], []))
    ∧ shiftResolvedSymbols [(1, [Sym.bit0])] = ([(1, [])], [Sym.bit0])
    ∧ ([] : List Sym) ≠ [Sym.bit0] :=
  ⟨rfl, rfl, by decide⟩

/-- C4: `close` on a non-empty hypothesis map first expands; with exactly one
end-state hypothesis it flushes that queue (no warning), with more than one
end-state hypothesis, or none but several hypotheses, it warns and discards
without writing; given `expand` succeeded it never returns an error. -/
theorem close_spec (m : Machine) (cur cur2 : StateString)
    (h1 : cur.isEmpty = false)
    (h2 : expandLoop m (expandFuel m) cur [] = Except.ok (some cur2)) :
    (∀ e, cur2.filter (fun ss => (m.getState ss.1).isEnd) = [e] →
        Decoder.close m cur = Except.ok (some (e.2, false)))
    ∧ (1 < (cur2.filter (fun ss => (m.getState ss.1).isEnd)).length →
        Decoder.close m cur = Except.ok (some ([], true)))
    ∧ (cur2.filter (fun ss => (m.getState ss.1).isEnd) = [] → 1 < cur2.length →
        Decoder.close m cur = Except.ok (some ([], true)))
    ∧ ∀ err, Decoder.close m cur ≠ Except.error err := by
  have hd : Decoder.close m cur
      = (match cur2.filter (fun ss => (m.getState ss.1).isEnd) with
        | [] =>
          if 1 < cur2.length then Except.ok (some ([], true))
          else Except.ok (some ([], false))
        | [e] => Except.ok (some (e.2, false))
        | _ => Except.ok (some ([], true))) := by
    rw [Decoder.close]
    simp only [h1, Bool.false_eq_true, if_false, h2]
  refine ⟨?_, ?_, ?_, ?_⟩
  · intro e he
    rw [hd, he]
  · intro hlen
    rcases hf : cur2.filter (fun ss => (m.getState ss.1).isEnd) with _ | ⟨a, _ | ⟨b, rest⟩⟩
    · rw [hf] at hlen
      simp at hlen
    · rw [hf] at hlen
      simp at hlen
    · rw [hd, hf]
  · intro hf hlen
    rw [hd, hf]
    simp [hlen]
  · intro err
    rcases hf : cur2.filter (fun ss => (m.getState ss.1).isEnd) with _ | ⟨a, rest2⟩
    · rw [hd, hf]
      by_cases hl : 1 < cur2.length <;> simp [hl]
    · rcases rest2 with _ | ⟨b, rest⟩
      · rw [hd, hf]
        simp
      · rw [hd, hf]
        simp

/-- C4 witness: on the one-end-state machine `M4`, closing with the pending
queue `[0]` flushes it without warning. -/
theorem close_spec_witness :
    Decoder.close M4 [(0, [Sym.bit0])] = Except.ok (some ([Sym.bit0], false)) :=
  (close_spec M4 [(0, [Sym.bit0])] [(0, [Sym.bit0])] rfl rfl).1 (0, [Sym.bit0]) rfl

/-! ## Termination of the expand loop -/

theorem getState_dest_lt {m : Machine} (hwf : MachineWF m) (s : Nat)
    {t : MachineTransition} (ht : t ∈ (m.getState s).trans) : t.dest < m.nStates := by
  unfold Machine.getState at ht
  rcases Nat.lt_or_ge s m.state.length with hs | hs
  · rw [List.getD_eq_getElem?_getD, List.getElem?_eq_getElem hs] at ht
    exact hwf _ (List.getElem_mem hs) t ht
  · rw [List.getD_eq_getElem?_getD, List.getElem?_eq_none hs] at ht
    simp at ht

theorem expandTrans_keys_mono {m : Machine} {seen : StateString} {str : Queue} :
    ∀ {ts : List MachineTransition} {next : StateString} {found : Bool}
      {next2 : StateString} {found2 : Bool},
    expandTrans m seen str ts next found = Except.ok (next2, found2) →
    ∀ a ∈ ssKeys next, a ∈ ssKeys next2 := by
  intro ts
  induction ts with
  | nil =>
    intro next found next2 found2 h a ha
    cases h
    exact ha
  | cons t ts ih =>
    intro next found next2 found2 h a ha
    by_cases hc : (isUsable t && t.outputEmpty) = true
    · simp only [expandTrans, hc, if_true] at h
      split at h
      · split at h
        · exact ih h a ha
        · cases h
      · exact ih h a (mem_ssKeys_ssSet.mpr (Or.inr ha))
    · rw [Bool.not_eq_true] at hc
      simp only [expandTrans, hc, Bool.false_eq_true, if_false] at h
      exact ih h a ha

theorem expandTrans_keys_bound {m : Machine} {seen : StateString} {str : Queue} {n : Nat} :
    ∀ {ts : List MachineTransition} {next : StateString} {found : Bool}
      {next2 : StateString} {found2 : Bool},
    expandTrans m seen str ts next found = Except.ok (next2, found2) →
    (∀ t ∈ ts, t.dest < n) → (∀ a ∈ ssKeys next, a < n) →
    ∀ a ∈ ssKeys next2, a < n := by
  intro ts
  induction ts with
  | nil =>
    intro next found next2 found2 h _ hb a ha
    cases h
    exact hb a ha
  | cons t ts ih =>
    intro next found next2 found2 h hts hb a ha
    by_cases hc : (isUsable t && t.outputEmpty) = true
    · simp only [expandTrans, hc, if_true] at h
      split at h
      · split at h
        · exact ih h (fun u hu => hts u (List.mem_cons_of_mem _ hu)) hb a ha
        · cases h
      · refine ih h (fun u hu => hts u (List.mem_cons_of_mem _ hu)) ?_ a ha
        intro b hbm
        rcases mem_ssKeys_ssSet.mp hbm with rfl | hbm2
        · exact hts t (List.mem_cons_self _ _)
        · exact hb b hbm2
    · rw [Bool.not_eq_true] at hc
      simp only [expandTrans, hc, Bool.false_eq_true, if_false] at h
      exact ih h (fun u hu => hts u (List.mem_cons_of_mem _ hu)) hb a ha

theorem expandTrans_found {m : Machine} {seen : StateString} {str : Queue} :
    ∀ {ts : List MachineTransition} {next : StateString} {found : Bool}
      {next2 : StateString},
    expandTrans m seen str ts next found = Except.ok (next2, true) →
    found = true ∨ ∃ d, d ∈ ssKeys next2 ∧ ssLookup seen d = none := by
  intro ts
  induction ts with
  | nil =>
    intro next found next2 h
    cases h
    exact Or.inl rfl
  | cons t ts ih =>
    intro next found next2 h
    by_cases hc : (isUsable t && t.outputEmpty) = true
    · simp only [expandTrans, hc, if_true] at h
      split at h
      · split at h
        · exact ih h
        · cases h
      · rename_i hlook
        refine Or.inr ⟨t.dest, ?_, hlook⟩
        exact expandTrans_keys_mono h t.dest (mem_ssKeys_ssSet.mpr (Or.inl rfl))
    · rw [Bool.not_eq_true] at hc
      simp only [expandTrans, hc, Bool.false_eq_true, if_false] at h
      exact ih h

theorem expandSecondLoop_keys_mono {m : Machine} {seen : StateString} :
    ∀ {cur next : StateString} {found : Bool} {next2 : StateString} {found2 : Bool},
    expandSecondLoop m seen cur next found = Except.ok (next2, found2) →
    ∀ a ∈ ssKeys next, a ∈ ssKeys next2 := by
  intro cur
  induction cur with
  | nil =>
    intro next found next2 found2 h a ha
    cases h
    exact ha
  | cons sq rest ih =>
    intro next found next2 found2 h a ha
    obtain ⟨s, str⟩ := sq
    simp only [expandSecondLoop] at h
    cases hd : expandTrans m seen str (m.getState s).trans next found with
    | error e => rw [hd] at h; cases h
    | ok p =>
      obtain ⟨next3, found3⟩ := p
      rw [hd] at h
      exact ih h a (expandTrans_keys_mono hd a ha)

theorem expandSecondLoop_keys_bound {m : Machine} {seen : StateString} {n : Nat}
    (hdest : ∀ s, ∀ t ∈ (m.getState s).trans, t.dest < n) :
    ∀ {cur next : StateString} {found : Bool} {next2 : StateString} {found2 : Bool},
    expandSecondLoop m seen cur next found = Except.ok (next2, found2) →
    (∀ a ∈ ssKeys next, a < n) → ∀ a ∈ ssKeys next2, a < n := by
  intro cur
  induction cur with
  | nil =>
    intro next found next2 found2 h hb a ha
    cases h
    exact hb a ha
  | cons sq rest ih =>
    intro next found next2 found2 h hb a ha
    obtain ⟨s, str⟩ := sq
    simp only [expandSecondLoop] at h
    cases hd : expandTrans m seen str (m.getState s).trans next found with
    | error e => rw [hd] at h; cases h
    | ok p =>
      obtain ⟨next3, found3⟩ := p
      rw [hd] at h
      exact ih h (expandTrans_keys_bound hd (hdest s) hb) a ha

theorem expandSecondLoop_found {m : Machine} {seen : StateString} :
    ∀ {cur next : StateString} {found : Bool} {next2 : StateString},
    expandSecondLoop m seen cur next found = Except.ok (next2, true) →
    found = true ∨ ∃ d, d ∈ ssKeys next2 ∧ ssLookup seen d = none := by
  intro cur
  induction cur with
  | nil =>
    intro next found next2 h
    cases h
    exact Or.inl rfl
  | cons sq rest ih =>
    intro next found next2 h
    obtain ⟨s, str⟩ := sq
    simp only [expandSecondLoop] at h
    cases hd : expandTrans m seen str (m.getState s).trans next found with
    | error e => rw [hd] at h; cases h
    | ok p =>
      obtain ⟨next3, found3⟩ := p
      rw [hd] at h
      rcases ih h with hf3 | hex
      · subst hf3
        rcases expandTrans_found hd with hf | ⟨d, hd1, hd2⟩
        · exact Or.inl hf
        · exact Or.inr ⟨d, expandSecondLoop_keys_mono h d hd1, hd2⟩
      · exact Or.inr hex

theorem preserveGo_keys {m : Machine} :
    ∀ {cur nx : StateString} {a : Nat},
    a ∈ ssKeys (preserveGo m cur nx) → a ∈ ssKeys nx ∨ a ∈ ssKeys cur := by
  intro cur
  induction cur with
  | nil =>
    intro nx a ha
    exact Or.inl ha
  | cons ss rest ih =>
    intro nx a ha
    simp only [preserveGo] at ha
    rcases ih ha with hnx | hrest
    · split at hnx
      · rcases mem_ssKeys_ssSet.mp hnx with rfl | h2
        · right
          simp [ssKeys]
        · exact Or.inl h2
      · exact Or.inl hnx
    · right
      simp only [ssKeys, List.map_cons, List.mem_cons]
      exact Or.inr hrest

theorem ssKeys_card_le {l : StateString} {n : Nat} (hb : ∀ a ∈ ssKeys l, a < n) :
    (ssKeys l).toFinset.card ≤ n := by
  have hsub : (ssKeys l).toFinset ⊆ Finset.range n := by
    intro a ha
    rw [List.mem_toFinset] at ha
    exact Finset.mem_range.mpr (hb a ha)
  calc (ssKeys l).toFinset.card ≤ (Finset.range n).card := Finset.card_le_card hsub
    _ = n := Finset.card_range n

theorem mergeSeen_keys_toFinset (seen cur : StateString) :
    (ssKeys (mergeSeen seen cur)).toFinset
      = (ssKeys seen).toFinset ∪ (ssKeys cur).toFinset := by
  ext a
  simp only [List.mem_toFinset, Finset.mem_union]
  exact mem_ssKeys_mergeSeen

theorem expandLoop_ne_none {m : Machine} (hwf : MachineWF m) :
    ∀ (fuel : Nat) (cur seen : StateString),
    (∀ a ∈ ssKeys cur, a < m.nStates) →
    (∀ a ∈ ssKeys seen, a < m.nStates) →
    m.nStates + 1 ≤ fuel + (ssKeys (mergeSeen seen cur)).toFinset.card →
    expandLoop m fuel cur seen ≠ Except.ok none := by
  intro fuel
  induction fuel with
  | zero =>
    intro cur seen hbc hbs hcard
    have hbm : ∀ a ∈ ssKeys (mergeSeen seen cur), a < m.nStates := by
      intro a ha
      rcases mem_ssKeys_mergeSeen.mp ha with h | h
      · exact hbs a h
      · exact hbc a h
    have := ssKeys_card_le hbm
    omega
  | succ fuel ih =>
    intro cur seen hbc hbs hcard
    have hbm : ∀ a ∈ ssKeys (mergeSeen seen cur), a < m.nStates := by
      intro a ha
      rcases mem_ssKeys_mergeSeen.mp ha with h | h
      · exact hbs a h
      · exact hbc a h
    simp only [expandLoop]
    cases hp : expandSecondLoop m (mergeSeen seen cur) cur (preserveStates m cur) false with
    | error e =>
      intro hx
      cases hx
    | ok p =>
      obtain ⟨next, found⟩ := p
      cases found with
      | false =>
        intro hx
        cases hx
      | true =>
        show expandLoop m fuel next (mergeSeen seen cur) ≠ Except.ok none
        have hdest : ∀ s, ∀ t ∈ (m.getState s).trans, t.dest < m.nStates :=
          fun s t ht => getState_dest_lt hwf s ht
        have hbn : ∀ a ∈ ssKeys next, a < m.nStates := by
          refine expandSecondLoop_keys_bound hdest hp ?_
          intro a ha
          rcases preserveGo_keys ha with h | h
          · simp [ssKeys] at h
          · exact hbc a h
        obtain ⟨d, hd1, hd2⟩ := (expandSecondLoop_found hp).resolve_left (by simp)
        have hdnot : d ∉ ssKeys (mergeSeen seen cur) := ssLookup_eq_none_iff.mp hd2
        refine ih next (mergeSeen seen cur) hbn hbm ?_
        rw [mergeSeen_keys_toFinset]
        have hin : d ∈ (ssKeys next).toFinset := List.mem_toFinset.mpr hd1
        have hnotin : d ∉ (ssKeys (mergeSeen seen cur)).toFinset :=
          fun hx => hdnot (List.mem_toFinset.mp hx)
        have hsub : insert d ((ssKeys (mergeSeen seen cur)).toFinset)
            ⊆ (ssKeys (mergeSeen seen cur)).toFinset ∪ (ssKeys next).toFinset := by
          intro x hx
          rcases Finset.mem_insert.mp hx with rfl | hx2
          · exact Finset.mem_union_right _ hin
          · exact Finset.mem_union_left _ hx2
        have hcard2 := Finset.card_le_card hsub
        rw [Finset.card_insert_of_not_mem hnotin] at hcard2
        omega

/-- C6: for a well-formed machine whose null-output transition subgraph
restricted to non-emitting states is acyclic, `expand` terminates: with a
pass budget of `nStates + 1` the do-while loop always stops on its own
(a pass that adds no state outside `seen`), never exhausting the budget.
(The proof in fact never uses acyclicity: `seen` grows strictly with every
continuing pass, which bounds the number of passes by the state count.) -/
theorem expand_terminates (m : Machine) (cur : StateString)
    (hwf : MachineWF m) (hb : ∀ a ∈ ssKeys cur, a < m.nStates)
    (hacyc : nullAcyclic m = true) :
    Decoder.expand m cur ≠ Except.ok none := by
  have h0 : ∀ a ∈ ssKeys ([] : StateString), a < m.nStates := by
    intro a ha
    simp [ssKeys] at ha
  refine expandLoop_ne_none hwf (expandFuel m) cur [] hb h0 ?_
  unfold expandFuel
  omega

/-- C6 witness: the concrete machine `M6w` is well-formed with an acyclic
null subgraph, and `expand` from its start configuration stays within the
pass budget. -/
theorem expand_terminates_witness :
    Decoder.expand M6w [(0, [])] ≠ Except.ok none :=
  expand_terminates M6w [(0, [])] (by decide) (by decide) (by decide)

/-! ## Claim theorems: the binary writer -/

theorem flushByte_testBit8 (msb0 b0 b1 b2 b3 b4 b5 b6 b7 : Bool) (n : Nat) (hn : n < 8) :
    (flushByte msb0 [b0, b1, b2, b3, b4, b5, b6, b7]).testBit (bitShift msb0 n)
      = [b0, b1, b2, b3, b4, b5, b6, b7].getD n false := by
  interval_cases n <;> revert msb0 b0 b1 b2 b3 b4 b5 b6 b7 <;> decide

/-- C7: flushing a full 8-bit group places bit `n` of the group at byte
position `n` when `msb0` is false and at position `7 − n` when `msb0` is
true; in particular the bit sequence `1,0,1,1,0,0,0,1` yields the single byte
`0x8D` with `msb0 = false` and `0xB1` with `msb0 = true`. -/
theorem binaryWriter_bit_order (msb0 b0 b1 b2 b3 b4 b5 b6 b7 : Bool) (n : Nat)
    (hn : n < 8) :
    ((flushByte msb0 [b0, b1, b2, b3, b4, b5, b6, b7]).testBit (bitShift msb0 n)
        = [b0, b1, b2, b3, b4, b5, b6, b7].getD n false)
    ∧ (BinaryWriter.write (initWriter false)
        [Sym.bit1, Sym.bit0, Sym.bit1, Sym.bit1,
         Sym.bit0, Sym.bit0, Sym.bit0, Sym.bit1]).written = [0x8D]
    ∧ (BinaryWriter.write (initWriter true)
        [Sym.bit1, Sym.bit0, Sym.bit1, Sym.bit1,
         Sym.bit0, Sym.bit0, Sym.bit0, Sym.bit1]).written = [0xB1] :=
  ⟨flushByte_testBit8 msb0 b0 b1 b2 b3 b4 b5 b6 b7 n hn, rfl, rfl⟩

/-- C7 witness: bit 3 of the group `1,0,1,1,0,0,0,1` lands at byte position 3
when `msb0` is false. -/
theorem binaryWriter_bit_order_witness :
    (flushByte false [true, false, true, true, false, false, false, true]).testBit
        (bitShift false 3)
      = [true, false, true, true, false, false, false, true].getD 3 false :=
  (binaryWriter_bit_order false true false true true false false false true 3
    (by decide)).1

theorem write1_outbuf_le (w : BinaryWriter) (c : Sym) (h : w.outbuf.length ≤ 7) :
    (BinaryWriter.write1 w c).outbuf.length ≤ 7 := by
  unfold BinaryWriter.write1
  split
  · dsimp only
    split
    · simp [BinaryWriter.flush]
    · rename_i hlen
      simp only [List.length_append, List.length_singleton] at hlen ⊢
      simp only [beq_iff_eq] at hlen
      omega
  · exact h

theorem write_outbuf_le (w : BinaryWriter) (buf : List Sym) (h : w.outbuf.length ≤ 7) :
    (BinaryWriter.write w buf).outbuf.length ≤ 7 := by
  induction buf generalizing w with
  | nil => exact h
  | cons c rest ih =>
    show (BinaryWriter.write (BinaryWriter.write1 w c) rest).outbuf.length ≤ 7
    exact ih (BinaryWriter.write1 w c) (write1_outbuf_le w c h)

/-- C10: the binary writer's bit buffer holds at most 7 bits after
construction and after every completed `write` call: `write` flushes (once,
emptying the buffer) exactly when the buffer reaches 8 bits, so a full byte
never survives a call. -/
theorem binaryWriter_outbuf_bound (msb0 : Bool) (w : BinaryWriter) (buf : List Sym)
    (h : w.outbuf.length ≤ 7) :
    (initWriter msb0).outbuf.length ≤ 7
    ∧ (BinaryWriter.write w buf).outbuf.length ≤ 7 :=
  ⟨by simp [initWriter], write_outbuf_le w buf h⟩

/-- C10 witness: writing one bit to a fresh writer leaves at most 7 buffered
bits. -/
theorem binaryWriter_outbuf_bound_witness :
    (initWriter false).outbuf.length ≤ 7
    ∧ (BinaryWriter.write (initWriter false) [Sym.bit1]).outbuf.length ≤ 7 :=
  binaryWriter_outbuf_bound false (initWriter false) [Sym.bit1] (by decide)

/-! ## Claim theorems: the Viterbi cell layout -/

theorem mixedRadix_split (M A B a b : Nat) (ha : a < M) (hb : b < M)
    (heq : M * A + a = M * B + b) : A = B ∧ a = b := by
  have hM : 0 < M := by omega
  have e1 : (M * A + a) / M = A := by
    rw [Nat.mul_add_div hM, Nat.div_eq_of_lt ha]
    omega
  have e2 : (M * B + b) / M = B := by
    rw [Nat.mul_add_div hM, Nat.div_eq_of_lt hb]
    omega
  have f1 : (M * A + a) % M = a := by
    rw [Nat.mul_add_mod, Nat.mod_eq_of_lt ha]
  have f2 : (M * B + b) % M = b := by
    rw [Nat.mul_add_mod, Nat.mod_eq_of_lt hb]
  rw [heq] at e1 f1
  omega

/-- C8: `cellIndex` is the mixed-radix map
`(maxDupLen + 2) · (pos · nStates + state) + mutState`, a bijection between
the valid triples (`state < nStates`, `pos ≤ seqLen`,
`mutState < maxDupLen + 2`) and the flat array of `nCells` cells: it stays in
range, is injective, and every flat index is hit. -/
theorem cellIndex_bijection (maxDupLen nStates seqLen state pos mutState : Nat)
    (hs : state < nStates) (hp : pos ≤ seqLen) (hmu : mutState < maxDupLen + 2) :
    (cellIndex maxDupLen nStates state pos mutState < nCells maxDupLen nStates seqLen)
    ∧ (∀ s2 p2 mu2, s2 < nStates → p2 ≤ seqLen → mu2 < maxDupLen + 2 →
        cellIndex maxDupLen nStates s2 p2 mu2
          = cellIndex maxDupLen nStates state pos mutState →
        s2 = state ∧ p2 = pos ∧ mu2 = mutState)
    ∧ (∀ i, i < nCells maxDupLen nStates seqLen →
        ∃ s2 p2 mu2, s2 < nStates ∧ p2 ≤ seqLen ∧ mu2 < maxDupLen + 2 ∧
          cellIndex maxDupLen nStates s2 p2 mu2 = i) := by
  refine ⟨?_, ?_, ?_⟩
  · unfold cellIndex nCells
    have h1 : pos * nStates + state + 1 ≤ nStates * (seqLen + 1) := by
      have h2 : pos * nStates + state + 1 ≤ (pos + 1) * nStates := by
        rw [Nat.succ_mul]
        omega
      have h3 : (pos + 1) * nStates ≤ (seqLen + 1) * nStates :=
        Nat.mul_le_mul_right _ (by omega)
      calc pos * nStates + state + 1 ≤ (pos + 1) * nStates := h2
        _ ≤ (seqLen + 1) * nStates := h3
        _ = nStates * (seqLen + 1) := Nat.mul_comm _ _
    calc (maxDupLen + 2) * (pos * nStates + state) + mutState
        < (maxDupLen + 2) * (pos * nStates + state) + (maxDupLen + 2) := by omega
      _ = (maxDupLen + 2) * (pos * nStates + state + 1) := by ring
      _ ≤ (maxDupLen + 2) * (nStates * (seqLen + 1)) := Nat.mul_le_mul_left _ h1
      _ = (maxDupLen + 2) * nStates * (seqLen + 1) := by ring
  · intro s2 p2 mu2 hs2 hp2 hmu2 heq
    unfold cellIndex at heq
    obtain ⟨hA, hmu3⟩ := mixedRadix_split (maxDupLen + 2) _ _ _ _ hmu2 hmu heq
    rw [Nat.mul_comm p2 nStates, Nat.mul_comm pos nStates] at hA
    have hA2 : nStates * p2 + s2 = nStates * pos + state := hA
    obtain ⟨hp3, hs3⟩ := mixedRadix_split nStates _ _ _ _ hs2 hs hA2
    exact ⟨hs3, hp3, hmu3⟩
  · intro i hi
    unfold nCells at hi
    have hN : 0 < nStates := by
      rcases Nat.eq_zero_or_pos nStates with h | h
      · rw [h] at hi
        simp at hi
      · exact h
    refine ⟨(i / (maxDupLen + 2)) % nStates, (i / (maxDupLen + 2)) / nStates,
      i % (maxDupLen + 2), Nat.mod_lt _ hN, ?_, Nat.mod_lt _ (by omega), ?_⟩
    · have h1 : i / (maxDupLen + 2) < nStates * (seqLen + 1) := by
        apply Nat.div_lt_of_lt_mul
        calc i < (maxDupLen + 2) * nStates * (seqLen + 1) := hi
          _ = (maxDupLen + 2) * (nStates * (seqLen + 1)) := by ring
      have h2 : (i / (maxDupLen + 2)) / nStates < seqLen + 1 :=
        Nat.div_lt_of_lt_mul h1
      omega
    · unfold cellIndex
      have e1 : (i / (maxDupLen + 2)) / nStates * nStates + (i / (maxDupLen + 2)) % nStates
          = i / (maxDupLen + 2) := by
        rw [Nat.mul_comm]
        exact Nat.div_add_mod _ _
      rw [e1]
      exact Nat.div_add_mod i (maxDupLen + 2)

/-- C8 witness: with `maxDupLen = 1`, `nStates = 2`, `seqLen = 3`, the cell
of `(state, pos, mutState) = (1, 2, 0)` lies inside the flat array. -/
theorem cellIndex_bijection_witness :
    cellIndex 1 2 1 2 0 < nCells 1 2 3 :=
  (cellIndex_bijection 1 2 3 1 2 0 (by decide) (by decide) (by decide)).1

/-- C9: for a state with non-empty left context, the tandem-duplication
mutator states sit at flat indices `2 … maxDupLen + 1` (index `2 + k`
encoding `T(k)`, recognised by `isTMutStateIndex`), the base emitted in
`T(k)` is `leftContext[|leftContext| − 1 − k]` (a base of the left context),
and the number of tandem-duplication states available at the state is
`min(maxDupLen, |leftContext|)`. -/
theorem tanDup_layout (maxDupLen : Nat) (ss : StateScores) (k : Nat)
    (hne : ss.leftContext ≠ []) (hk : k < maxDupLenAt maxDupLen ss) :
    tMutStateIndex k = 2 + k
    ∧ 2 ≤ tMutStateIndex k
    ∧ tMutStateIndex k ≤ maxDupLen + 1
    ∧ isTMutStateIndex maxDupLen (tMutStateIndex k) = true
    ∧ tanDupBase ss k = ss.leftContext.getD (ss.leftContext.length - 1 - k) default
    ∧ tanDupBase ss k ∈ ss.leftContext
    ∧ maxDupLenAt maxDupLen ss = min maxDupLen ss.leftContext.length := by
  have hkm : k < maxDupLen := lt_of_lt_of_le hk (min_le_left _ _)
  have hkl : k < ss.leftContext.length := lt_of_lt_of_le hk (min_le_right _ _)
  refine ⟨rfl, by simp [tMutStateIndex], by unfold tMutStateIndex; omega, ?_, rfl, ?_, rfl⟩
  · unfold isTMutStateIndex tMutStateIndex
    simp only [Bool.and_eq_true, decide_eq_true_eq]
    omega
  · unfold tanDupBase
    have hidx : ss.leftContext.length - 1 - k < ss.leftContext.length := by omega
    rw [List.getD_eq_getElem?_getD, List.getElem?_eq_getElem hidx]
    simp only [Option.getD_some]
    exact List.getElem_mem hidx

/-- C9 witness: with `maxDupLen = 2` and left context `abc`, the mutator
state `T(1)` sits at flat index 3. -/
theorem tanDup_layout_witness :
    tMutStateIndex 1 = 2 + 1 :=
  (tanDup_layout 2 ⟨['a', 'b', 'c']⟩ 1 (by decide) (by decide)).1

end DS
